import Mathlib

/-!
Shallow embedding of `task_Nesterenko_Anton_inverted_index.py` (the inverted-index
core of the repository) and proofs of the specification claims about it.

Modelling conventions:
* A Python `dict` is an association list in insertion order with distinct keys;
  `dict[k] = v` is `dictInsert` (update in place if the key exists, else append),
  `dict[k]` / `k in dict` are `dictLookup`.
* Python `int` document ids are `Int`; byte strings are `List Nat`
  (each entry a byte value `< 256`).
* Fallible Python code (raising exceptions) is modelled with `Option` / `Except`.
  The spec-level error taxonomy names the conditions `FormatError`,
  `EmptyIndexError`, `CorruptIndexError`; the concrete Python exceptions
  (`ValueError`, `IndexError`, `struct.error`, `UnicodeDecodeError`, `TypeError`)
  are mapped onto those conditions where the spec does so.
-/

namespace InvIdx

/-- Spec-level error conditions for the fallible operations (see spec section 7).
`packOverflow` models a `struct.error` raised while packing an out-of-range
value during `dump`; the spec gives that condition no name. The `TypeError`
that `query` raises on an empty word list is modelled by `Option.none`. -/
inductive Err where
  | formatError
  | emptyIndexError
  | corruptIndexError
  | packOverflow
  deriving DecidableEq

/-- Python `dict` lookup (`d[k]` / `k in d`) on an insertion-ordered
association list. -/
def dictLookup {α β : Type} [DecidableEq α] (d : List (α × β)) (k : α) : Option β :=
  match d with
  | [] => none
  | (k2, v) :: rest => if k2 = k then some v else dictLookup rest k

/-- Python `dict` assignment `d[k] = v`: update in place if the key is
present, else append. -/
def dictInsert {α β : Type} [DecidableEq α] (d : List (α × β)) (k : α) (v : β) :
    List (α × β) :=
  match d with
  | [] => [(k, v)]
  | (k2, v2) :: rest =>
      if k2 = k then (k2, v) :: rest else (k2, v2) :: dictInsert rest k v

/-- Accumulator pass of Python `str.split()`: walk the characters keeping
the (reversed) current token; whitespace closes the token, and empty pieces
are dropped. -/
def splitWSAux : List Char → List Char → List (List Char)
  | [], cur => if cur = [] then [] else [cur.reverse]
  | c :: cs, cur =>
      if c.isWhitespace then
        if cur = [] then splitWSAux cs [] else cur.reverse :: splitWSAux cs []
      else splitWSAux cs (c :: cur)

/-- Python `str.split()` with no argument: split on runs of whitespace,
dropping empty pieces. -/
def splitWS (l : List Char) : List (List Char) :=
  splitWSAux l []

/-- Model of `row.strip().split()` from the source: the leading `strip` is redundant
because `split()` with no argument already discards leading and trailing
whitespace. -/
def pyTokens (s : String) : List String :=
  (splitWS s.data).map (fun cs => String.mk cs)

/-- Python `" ".join(parts)`. -/
def joinSp : List String → String
  | [] => ""
  | [s] => s
  | s :: rest => s ++ " " ++ joinSp rest

/-- Decimal digits to a number; `none` at the first non-digit
(helper for Python `int(token)`). -/
def digitsToNat (acc : Nat) : List Char → Option Nat
  | [] => some acc
  | c :: cs => if c.isDigit then digitsToNat (acc * 10 + (c.toNat - 48)) cs else none

/-- Python `int(token)` on a whitespace-free token: optional sign then at
least one decimal digit. (Python additionally accepts digit-separating
underscores and non-ASCII decimal digits; those inessential extensions are
not modelled and no claim depends on them. Tokens produced by `split()`
contain no whitespace, so `int`'s whitespace stripping never fires.) -/
def pyInt (s : String) : Option Int :=
  match s.data with
  | [] => none
  | c :: cs =>
      if c = '-' then
        match cs with
        | [] => none
        | _ => (digitsToNat 0 cs).map (fun n => -(n : Int))
      else if c = '+' then
        match cs with
        | [] => none
        | _ => (digitsToNat 0 cs).map Int.ofNat
      else (digitsToNat 0 (c :: cs)).map Int.ofNat

/-- The in-memory inverted index: Python `Dict[str, List[int]]` in insertion
order. -/
abbrev Index := List (String × List Int)

/-- The documents mapping: Python `Dict[int, str]` in insertion order. -/
abbrev Docs := List (Int × String)

/-! ## Document loader (`load_documents`) -/

/-- The per-line computation of `load_documents`:
`row = row.strip().split()`, then `int(row[0])` and `" ".join(row[1:])`.
`none` models the failures of that line: `row[0]` raises `IndexError` when
the line has no tokens, and `int` raises `ValueError` when the first token
is not an integer. -/
def parseLine (line : String) : Option (Int × String) :=
  match pyTokens line with
  | [] => none
  | t :: ts => (pyInt t).map (fun id => (id, joinSp ts))

/-- Loop body of `load_documents`: for each corpus line run `parseLine` and
store `documents[int(row[0])] = " ".join(row[1:])`. A failing line is the
spec's malformed-corpus condition `FormatError` and aborts the load. -/
def loadDocsLoop (documents : Docs) : List String → Except Err Docs
  | [] => .ok documents
  | line :: rest =>
      match parseLine line with
      | none => .error .formatError
      | some kv => loadDocsLoop (dictInsert documents kv.1 kv.2) rest

/-- Model of `load_documents`, with the file already read as a list of lines
(trailing newlines stripped; `split()` would discard them anyway). -/
def load_documents (lines : List String) : Except Err Docs :=
  loadDocsLoop [] lines

/-- The text of the last corpus line bearing the given id
(spec-side helper used to state last-write-wins). -/
def lastText (lines : List String) (id : Int) : Option String :=
  (lines.filterMap parseLine).foldl
    (fun acc kv => if kv.1 = id then some kv.2 else acc) none

/-! ## Index builder (`build_inverted_index`) -/

/-- Model of `index[word].add(doc_id)` on the `defaultdict(set)`: insert into the
posting set in place if the word is present, else append a fresh singleton
set (a `defaultdict` appends new keys at the end). -/
def addPosting (m : List (String × Finset Int)) (w : String) (d : Int) :
    List (String × Finset Int) :=
  match m with
  | [] => [(w, {d})]
  | (k, s) :: rest =>
      if k = w then (k, insert d s) :: rest else (k, s) :: addPosting rest w d

/-- The inner loop of `build_inverted_index`:
`for word in doc_text.split(): index[word].add(doc_id)`. -/
def addDoc (m : List (String × Finset Int)) (d : Int) (text : String) :
    List (String × Finset Int) :=
  (pyTokens text).foldl (fun a w => addPosting a w d) m

/-- The `defaultdict(set)` built by the outer loop of `build_inverted_index`. -/
def buildIndexMap (documents : Docs) : List (String × Finset Int) :=
  documents.foldl (fun acc kv => addDoc acc kv.1 kv.2) []

/-- Model of `list(s)` on a Python set of ints. The enumeration order of a Python set
is unspecified; it is modelled by the ascending enumeration, which is
computable. No claim depends on the order. -/
def setToList (s : Finset Int) : List Int :=
  s.sort (fun a b => a ≤ b)

/-- Model of `build_inverted_index`: build the posting sets, then materialize
`{k: list(v) for k, v in index.items()}`. -/
def build_inverted_index (documents : Docs) : Index :=
  (buildIndexMap documents).map (fun kv => (kv.1, setToList kv.2))

/-! ## Query engine (`InvertedIndex.query`) -/

/-- The loop of `InvertedIndex.query`, with the accumulator `tmp` explicit.
`tmp = None` initially; a present word either initializes `tmp` to
`set(self._index[word])` (a fresh set built from the stored list) or
intersects it in place; an absent word returns `list()` at once. After the
loop the code returns `list(tmp)`, which raises `TypeError` when `tmp` is
still `None` (empty word list); that failure is modelled as `none`. -/
def queryLoop (index : Index) (tmp : Option (Finset Int)) :
    List String → Option (List Int)
  | [] =>
      match tmp with
      | none => none
      | some s => some (setToList s)
  | w :: ws =>
      match dictLookup index w with
      | none => some []
      | some postings =>
          match tmp with
          | none => queryLoop index (some postings.toFinset) ws
          | some s => queryLoop index (some (s ∩ postings.toFinset)) ws

/-- Model of `InvertedIndex.query`. -/
def query (index : Index) (words : List String) : Option (List Int) :=
  queryLoop index none words

/-- Membership of a document id in a query result
(false when the query fails). -/
def queryMem (index : Index) (words : List String) (d : Int) : Prop :=
  ∃ res, query index words = some res ∧ d ∈ res

/-- State-passing embedding of `InvertedIndex.query` used for the frame
claim: `self._index` is the store; every operation of the loop body is a
store read (`word in self._index`, `self._index[word]`) or an update of the
local `tmp` (`tmp = set(...)` builds a fresh set from a copy of the stored
list's elements, `tmp.intersection_update(...)` overwrites only that fresh
set). The store each step returns is the store after that step. -/
def queryST (index : Index) (tmp : Option (Finset Int)) :
    List String → Option (List Int) × Index
  | [] =>
      match tmp with
      | none => (none, index)
      | some s => (some (setToList s), index)
  | w :: ws =>
      match dictLookup index w with
      | none => (some [], index)
      | some postings =>
          match tmp with
          | none => queryST index (some postings.toFinset) ws
          | some s => queryST index (some (s ∩ postings.toFinset)) ws

/-! ## Binary codec (`StructStoragePolicy`)

`struct.pack("I", v)` uses native byte order; the targeted platforms are
little-endian, and `load` unpacks the header with the same native `"I"`, so
the header is modelled as 4 little-endian bytes. All other fields use the
explicit big-endian formats `">H"` / `">I"` from the source. -/

/-- Big-endian byte string of the given width for `n < 256 ^ width`
(the byte payload of `struct.pack(">H", n)` / `struct.pack(">I", n)`). -/
def beBytes : Nat → Nat → List Nat
  | 0, _ => []
  | w + 1, n => beBytes w (n / 256) ++ [n % 256]

/-- Little-endian byte string of the given width
(the byte payload of native `struct.pack("I", n)`). -/
def leBytes : Nat → Nat → List Nat
  | 0, _ => []
  | w + 1, n => n % 256 :: leBytes w (n / 256)

/-- Value of a big-endian byte string. -/
def beVal (bs : List Nat) : Nat :=
  bs.foldl (fun acc b => acc * 256 + b) 0

/-- Value of a little-endian byte string. -/
def leVal (bs : List Nat) : Nat :=
  bs.foldr (fun b acc => acc * 256 + b) 0

/-- Model of `struct.pack` of one unsigned big-endian field: `struct.error`
(modelled as `none`) when the value does not fit the field. -/
def packBE (width : Nat) (z : Int) : Option (List Nat) :=
  if 0 ≤ z ∧ z < (256 : Int) ^ width then some (beBytes width z.toNat) else none

/-- Model of `struct.pack` of one unsigned native (little-endian) field. -/
def packLE (width : Nat) (z : Int) : Option (List Nat) :=
  if 0 ≤ z ∧ z < (256 : Int) ^ width then some (leBytes width z.toNat) else none

/-- Model of `struct.unpack` of one unsigned big-endian field from a buffer:
`struct.error` (modelled as `none`) unless the buffer length matches the
format exactly. -/
def unpackBE (width : Nat) (buf : List Nat) : Option Nat :=
  if buf.length = width then some (beVal buf) else none

/-- Model of `struct.unpack` of one unsigned native (little-endian) field. -/
def unpackLE (width : Nat) (buf : List Nat) : Option Nat :=
  if buf.length = width then some (leVal buf) else none

/-- Model of `struct.pack(">" + value_fmt * len(value), *value)`: every value packed
with the same width, concatenated. -/
def packValues (width : Nat) : List Int → Option (List Nat)
  | [] => some []
  | z :: zs =>
      match packBE width z with
      | none => none
      | some b =>
          match packValues width zs with
          | none => none
          | some rest => some (b ++ rest)

/-- The values of `n` consecutive big-endian fields of the given width
(helper for `struct.unpack` of a repeated format). -/
def beChunks (width : Nat) : Nat → List Nat → List Int
  | 0, _ => []
  | n + 1, buf => Int.ofNat (beVal (buf.take width)) :: beChunks width n (buf.drop width)

/-- Model of `struct.unpack(">" + value_fmt * values_len, buf)`: `struct.error`
(modelled as `none`) unless the buffer length matches the repeated format
exactly. -/
def unpackValues (width n : Nat) (buf : List Nat) : Option (List Int) :=
  if buf.length = n * width then some (beChunks width n buf) else none

/-- UTF-8 encoding of one code point (helper for `key.encode('utf8')`). -/
def utf8EncodeChar (c : Nat) : List Nat :=
  if c < 0x80 then [c]
  else if c < 0x800 then [0xC0 + c / 64, 0x80 + c % 64]
  else if c < 0x10000 then [0xE0 + c / 4096, 0x80 + c / 64 % 64, 0x80 + c % 64]
  else [0xF0 + c / 262144, 0x80 + c / 4096 % 64, 0x80 + c / 64 % 64, 0x80 + c % 64]

/-- Model of `key.encode('utf8')` on the key's character list. -/
def utf8EncodeList : List Char → List Nat
  | [] => []
  | c :: cs => utf8EncodeChar c.toNat ++ utf8EncodeList cs

/-- One UTF-8-encoded code point at the head of a byte string, with the
remaining bytes (helper for `bytes.decode('utf8')`). -/
def utf8DecodeChar : List Nat → Option (Nat × List Nat)
  | [] => none
  | b0 :: bs =>
      if b0 < 0x80 then some (b0, bs)
      else if b0 < 0xC2 then none
      else if b0 < 0xE0 then
        match bs with
        | b1 :: bs2 =>
            if 0x80 ≤ b1 ∧ b1 < 0xC0 then
              some ((b0 - 0xC0) * 64 + (b1 - 0x80), bs2)
            else none
        | [] => none
      else if b0 < 0xF0 then
        match bs with
        | b1 :: b2 :: bs2 =>
            if (0x80 ≤ b1 ∧ b1 < 0xC0) ∧ (0x80 ≤ b2 ∧ b2 < 0xC0) then
              some ((b0 - 0xE0) * 4096 + (b1 - 0x80) * 64 + (b2 - 0x80), bs2)
            else none
        | _ => none
      else if b0 < 0xF5 then
        match bs with
        | b1 :: b2 :: b3 :: bs2 =>
            if (0x80 ≤ b1 ∧ b1 < 0xC0) ∧ (0x80 ≤ b2 ∧ b2 < 0xC0) ∧
                (0x80 ≤ b3 ∧ b3 < 0xC0) then
              some ((b0 - 0xF0) * 262144 + (b1 - 0x80) * 4096 +
                (b2 - 0x80) * 64 + (b3 - 0x80), bs2)
            else none
        | _ => none
      else none

theorem utf8DecodeChar_rest_length {l rest : List Nat} {c : Nat}
    (h : utf8DecodeChar l = some (c, rest)) : rest.length < l.length := by
  match l with
  | [] => simp [utf8DecodeChar] at h
  | b0 :: bs =>
      simp only [utf8DecodeChar] at h
      split_ifs at h with h1 h2 h3 h4 h5
      · simp only [Option.some.injEq, Prod.mk.injEq] at h
        rw [← h.2]
        simp only [List.length_cons]
        omega
      · split at h
        · split_ifs at h with hb
          simp only [Option.some.injEq, Prod.mk.injEq] at h
          rw [← h.2]
          simp only [List.length_cons]
          omega
        · simp at h
      · split at h
        · split_ifs at h with hb
          simp only [Option.some.injEq, Prod.mk.injEq] at h
          rw [← h.2]
          simp only [List.length_cons]
          omega
        · simp at h
      · split at h
        · split_ifs at h with hb
          simp only [Option.some.injEq, Prod.mk.injEq] at h
          rw [← h.2]
          simp only [List.length_cons]
          omega
        · simp at h

/-- Model of `bytes.decode('utf8')`: `UnicodeDecodeError` is modelled as `none`.
(Python additionally rejects overlong encodings, surrogates and code points
above U+10FFFF; those ill-formed inputs never arise from `utf8EncodeList`,
and every theorem below that meets an invalid byte string treats `some` and
`none` results alike.) -/
def utf8DecodeList (l : List Nat) : Option (List Char) :=
  match h : utf8DecodeChar l with
  | none => if l.isEmpty then some [] else none
  | some (c, rest) => (utf8DecodeList rest).map (fun cs => Char.ofNat c :: cs)
termination_by l.length
decreasing_by exact utf8DecodeChar_rest_length h

/-- Python `max` of a list: `ValueError` on the empty list, modelled as
`none`. -/
def listMax : List Int → Option Int
  | [] => none
  | x :: xs => some (xs.foldl max x)

/-- Model of `[max(v) for v in index.values()]`: `none` as soon as one posting list
is empty. -/
def allMaxima : List (List Int) → Option (List Int)
  | [] => some []
  | v :: rest =>
      match listMax v with
      | none => none
      | some m =>
          match allMaxima rest with
          | none => none
          | some ms => some (m :: ms)

/-- Model of `max_value = max([max(v) for v in index.values()])` from
`StructStoragePolicy.dump`: the `ValueError` raised on an empty index or an
empty posting list is the spec's `EmptyIndexError` condition. -/
def indexMax (index : Index) : Except Err Int :=
  match allMaxima (index.map Prod.snd) with
  | none => .error .emptyIndexError
  | some maxima =>
      match listMax maxima with
      | none => .error .emptyIndexError
      | some m => .ok m

/-- One record written by the body of the `dump` loop:
2-byte big-endian key length, UTF-8 key bytes, postings count and postings
in the chosen value width. -/
def dumpRecord (valueWidth : Nat) (key : String) (value : List Int) :
    Option (List Nat) :=
  (packBE 2 (Int.ofNat (utf8EncodeList key.data).length)).bind fun lenB =>
    (packBE valueWidth (Int.ofNat value.length)).bind fun cntB =>
      (packValues valueWidth value).bind fun valB =>
        some (lenB ++ utf8EncodeList key.data ++ cntB ++ valB)

/-- One step of assembling the records of the `dump` loop: the record for
the current key, followed by the records already assembled for the rest. -/
def dumpStep (valueWidth : Nat) (k : String) (v : List Int)
    (acc : Option (List Nat)) : Option (List Nat) :=
  (dumpRecord valueWidth k v).bind fun r =>
    acc.bind fun rs => some (r ++ rs)

/-- All records of the `dump` loop, in the dict's iteration order. -/
def dumpRecords (valueWidth : Nat) : Index → Option (List Nat)
  | [] => some []
  | kv :: rest => dumpStep valueWidth kv.1 kv.2 (dumpRecords valueWidth rest)

/-- A fallible step with its spec-level error condition: `none` becomes the
given error. -/
def okOr {α : Type} (o : Option α) (e : Err) : Except Err α :=
  match o with
  | none => .error e
  | some a => .ok a

/-- Model of `StructStoragePolicy.dump`, producing the byte string written to the
file: the native 4-byte `max_value` header, then the per-term records with
the value width chosen by the strict `max_value < 65535` test. The source
writes incrementally; a `struct.error` partway leaves a partial file, which
this model collapses to `Err.packOverflow` (no claim concerns partially
written dump files; `load` is proved about arbitrary byte strings). -/
def dump (index : Index) : Except Err (List Nat) :=
  (indexMax index).bind fun maxValue =>
    (okOr (packLE 4 maxValue) .packOverflow).bind fun header =>
      (okOr (dumpRecords (if maxValue < 65535 then 2 else 4) index)
          .packOverflow).bind fun recs =>
        .ok (header ++ recs)

/-- One iteration of the `StructStoragePolicy.load` loop, reading the record
at the head of `bs`: `bytes_len` from a 2-byte big-endian field, the key
bytes (`fio.read` returns at most the requested bytes, which `List.take`
models), the key via UTF-8, `values_len` from a `value_size`-byte field, and
the postings. Returns the record, the unread tail, and
`bytes_len + value_size + values_len * value_size` (the declared sizes the
loop subtracts from `file_size` after the fixed 2). A short buffer makes
`struct.unpack` raise `struct.error`, and an undecodable key raises
`UnicodeDecodeError` — both are the spec's `CorruptIndexError` condition,
modelled by `none`. -/
def readRecord (valueWidth : Nat) (bs : List Nat) :
    Option ((String × List Int) × List Nat × Nat) :=
  (unpackBE 2 (bs.take 2)).bind fun bytesLen =>
    (utf8DecodeList ((bs.drop 2).take bytesLen)).bind fun chars =>
      (unpackBE valueWidth (((bs.drop 2).drop bytesLen).take valueWidth)).bind
        fun valuesLen =>
          (unpackValues valueWidth valuesLen
              ((((bs.drop 2).drop bytesLen).drop valueWidth).take
                (valuesLen * valueWidth))).bind fun values =>
            some ((String.mk chars, values),
              ((((bs.drop 2).drop bytesLen).drop valueWidth).drop
                (valuesLen * valueWidth)),
              bytesLen + valueWidth + valuesLen * valueWidth)

/-- The `while file_size > 0` loop of `StructStoragePolicy.load`. `bs` is
the unread tail of the file and `fs` the tracked byte budget (`file_size`),
decremented by the declared sizes exactly as in the source
(`fs - 2 - extra` equals the source's sequential
`fs - 2 - bytes_len - value_size - values_len * value_size` by
`Nat.sub_sub`). On success the parsed record is stored with
`index[key] = values`. Python's `file_size` may go negative where the `Nat`
model floors at 0; the loop only compares it with 0, so the two agree. -/
def loadLoop (valueWidth : Nat) (bs : List Nat) (fs : Nat) (acc : Index) :
    Except Err Index :=
  if 0 < fs then
    match readRecord valueWidth bs with
    | none => .error .corruptIndexError
    | some rec2 =>
        loadLoop valueWidth rec2.2.1 (fs - 2 - rec2.2.2)
          (dictInsert acc rec2.1.1 rec2.1.2)
  else .ok acc
termination_by fs
decreasing_by omega

/-- Model of `StructStoragePolicy.load` on the file's byte string: read the 4-byte
header (`struct.unpack("I", fio.read(4))`, native little-endian), derive the
value width with the same strict `max_value < 65535` test as `dump`, then
run the record loop on the remaining `file_size - 4` bytes. -/
def load (bs : List Nat) : Except Err Index :=
  (okOr (unpackLE 4 (bs.take 4)) .corruptIndexError).bind fun maxValue =>
    loadLoop (if maxValue < 65535 then 2 else 4) (bs.drop 4) (bs.length - 4) []

/-- Declared key byte length of the record at the head of `bs`. -/
def recKeyLen (bs : List Nat) : Nat :=
  beVal (bs.take 2)

/-- Declared postings count of the record at the head of `bs`. -/
def recCount (valueWidth : Nat) (bs : List Nat) : Nat :=
  beVal ((bs.drop (2 + recKeyLen bs)).take valueWidth)

/-- Total declared size of the record at the head of `bs`: length field,
key bytes, count field, postings. -/
def recSize (valueWidth : Nat) (bs : List Nat) : Nat :=
  2 + recKeyLen bs + valueWidth + recCount valueWidth bs * valueWidth

/-- Some record's declared lengths read past the end of the available
bytes: either the record at the head of `bs` declares more bytes than
remain, or that record fits within the remaining bytes and a later record
is truncated. -/
inductive Truncated (valueWidth : Nat) : List Nat → Prop
  | here (bs : List Nat) : 0 < bs.length → bs.length < recSize valueWidth bs →
      Truncated valueWidth bs
  | later (bs : List Nat) : recSize valueWidth bs ≤ bs.length →
      Truncated valueWidth (bs.drop (recSize valueWidth bs)) →
      Truncated valueWidth bs

/-! ## Lemmas about the byte-field primitives -/

theorem beBytes_length (w : Nat) : ∀ n, (beBytes w n).length = w := by
  induction w with
  | zero => intro n; rfl
  | succ w ih => intro n; simp [beBytes, ih]

theorem leBytes_length (w : Nat) : ∀ n, (leBytes w n).length = w := by
  induction w with
  | zero => intro n; rfl
  | succ w ih => intro n; simp [leBytes, ih]

theorem beVal_foldl (bs : List Nat) : ∀ acc : Nat,
    bs.foldl (fun a b => a * 256 + b) acc = acc * 256 ^ bs.length + beVal bs := by
  induction bs with
  | nil => intro acc; simp [beVal]
  | cons b bs ih =>
      intro acc
      have hb : beVal (b :: bs) = b * 256 ^ bs.length + beVal bs := by
        show List.foldl _ (0 * 256 + b) bs = _
        rw [ih]
        ring_nf
      simp only [List.foldl_cons, List.length_cons]
      rw [ih (acc * 256 + b), hb]
      ring

theorem beVal_append (a b : List Nat) :
    beVal (a ++ b) = beVal a * 256 ^ b.length + beVal b := by
  show List.foldl _ 0 (a ++ b) = _
  rw [List.foldl_append]
  exact beVal_foldl b _

theorem beVal_single (b : Nat) : beVal [b] = b := by
  simp [beVal]

theorem beVal_beBytes (w : Nat) : ∀ n, n < 256 ^ w → beVal (beBytes w n) = n := by
  induction w with
  | zero =>
      intro n h
      interval_cases n
      rfl
  | succ w ih =>
      intro n h
      have hdiv : n / 256 < 256 ^ w := by
        rw [Nat.div_lt_iff_lt_mul (by omega)]
        calc n < 256 ^ (w + 1) := h
          _ = 256 ^ w * 256 := by rw [pow_succ]
      show beVal (beBytes w (n / 256) ++ [n % 256]) = n
      rw [beVal_append, ih _ hdiv, beVal_single]
      simp only [List.length_singleton, pow_one]
      omega

theorem leVal_leBytes (w : Nat) : ∀ n, n < 256 ^ w → leVal (leBytes w n) = n := by
  induction w with
  | zero =>
      intro n h
      interval_cases n
      rfl
  | succ w ih =>
      intro n h
      have hdiv : n / 256 < 256 ^ w := by
        rw [Nat.div_lt_iff_lt_mul (by omega)]
        calc n < 256 ^ (w + 1) := h
          _ = 256 ^ w * 256 := by rw [pow_succ]
      show leVal (n % 256 :: leBytes w (n / 256)) = n
      show leVal (leBytes w (n / 256)) * 256 + n % 256 = n
      rw [ih _ hdiv]
      omega

theorem packBE_some {w : Nat} {z : Int} {b : List Nat} (h : packBE w z = some b) :
    0 ≤ z ∧ z.toNat < 256 ^ w ∧ b = beBytes w z.toNat := by
  unfold packBE at h
  split at h
  · rename_i hcond
    have hc : ((256 ^ w : Nat) : Int) = (256 : Int) ^ w := by push_cast; ring
    refine ⟨hcond.1, ?_, by simpa using h.symm⟩
    have := hcond.2
    rw [← hc] at this
    omega
  · exact absurd h (by simp)

theorem packLE_some {w : Nat} {z : Int} {b : List Nat} (h : packLE w z = some b) :
    0 ≤ z ∧ z.toNat < 256 ^ w ∧ b = leBytes w z.toNat := by
  unfold packLE at h
  split at h
  · rename_i hcond
    have hc : ((256 ^ w : Nat) : Int) = (256 : Int) ^ w := by push_cast; ring
    refine ⟨hcond.1, ?_, by simpa using h.symm⟩
    have := hcond.2
    rw [← hc] at this
    omega
  · exact absurd h (by simp)

theorem unpackBE_exact {w : Nat} {buf : List Nat} (h : buf.length = w) :
    unpackBE w buf = some (beVal buf) := by
  simp [unpackBE, h]

theorem unpackLE_exact {w : Nat} {buf : List Nat} (h : buf.length = w) :
    unpackLE w buf = some (leVal buf) := by
  simp [unpackLE, h]

theorem unpackBE_short {w : Nat} {buf : List Nat} (h : buf.length ≠ w) :
    unpackBE w buf = none := by
  simp [unpackBE, h]

theorem packValues_length {w : Nat} : ∀ {v : List Int} {b : List Nat},
    packValues w v = some b → b.length = w * v.length := by
  intro v
  induction v with
  | nil => intro b h; simp [packValues] at h; simp [← h]
  | cons z zs ih =>
      intro b h
      unfold packValues at h
      cases hz : packBE w z with
      | none => rw [hz] at h; exact absurd h (by simp)
      | some bz =>
          cases hzs : packValues w zs with
          | none => rw [hz, hzs] at h; exact absurd h (by simp)
          | some rest =>
              rw [hz, hzs] at h
              obtain ⟨hzle, hzlt, hbz⟩ := packBE_some hz
              have : b = bz ++ rest := by simpa using h.symm
              subst this
              simp [hbz, beBytes_length, ih hzs, List.length_cons]
              ring

theorem packValues_chunks {w : Nat} : ∀ {v : List Int} {b : List Nat},
    packValues w v = some b → beChunks w v.length b = v := by
  intro v
  induction v with
  | nil => intro b h; simp [beChunks]
  | cons z zs ih =>
      intro b h
      unfold packValues at h
      cases hz : packBE w z with
      | none => rw [hz] at h; exact absurd h (by simp)
      | some bz =>
          cases hzs : packValues w zs with
          | none => rw [hz, hzs] at h; exact absurd h (by simp)
          | some rest =>
              rw [hz, hzs] at h
              obtain ⟨hzle, hzlt, hbz⟩ := packBE_some hz
              have hb : b = bz ++ rest := by simpa using h.symm
              subst hb
              have hlen : bz.length = w := by rw [hbz]; exact beBytes_length w _
              have ht : (bz ++ rest).take w = bz := by
                rw [← hlen]; exact List.take_left _ _
              have hd : (bz ++ rest).drop w = rest := by
                rw [← hlen]; exact List.drop_left _ _
              show Int.ofNat (beVal ((bz ++ rest).take w)) ::
                  beChunks w zs.length ((bz ++ rest).drop w) = z :: zs
              rw [ht, hd, hbz, beVal_beBytes _ _ hzlt, ih hzs]
              have : (Int.ofNat z.toNat) = z := Int.toNat_of_nonneg hzle
              rw [this]

/-! ## UTF-8 round trip -/

theorem utf8DecodeChar_encode (c : Char) (tail : List Nat) :
    utf8DecodeChar (utf8EncodeChar c.toNat ++ tail) = some (c.toNat, tail) := by
  have hv : c.toNat < 0xd800 ∨ (0xdfff < c.toNat ∧ c.toNat < 0x110000) := c.valid
  have hub : c.toNat < 0x110000 := by rcases hv with h | h <;> omega
  set n := c.toNat with hn
  unfold utf8EncodeChar
  by_cases h1 : n < 0x80
  · rw [if_pos h1]
    show utf8DecodeChar (n :: tail) = _
    simp only [utf8DecodeChar]
    rw [if_pos h1]
  · rw [if_neg h1]
    by_cases h2 : n < 0x800
    · rw [if_pos h2]
      show utf8DecodeChar ((0xC0 + n / 64) :: (0x80 + n % 64) :: tail) = _
      simp only [utf8DecodeChar]
      rw [if_neg (by omega), if_neg (by omega), if_pos (by omega),
        if_pos (by constructor <;> omega)]
      have harith : (0xC0 + n / 64 - 0xC0) * 64 + (0x80 + n % 64 - 0x80) = n := by
        omega
      rw [harith]
    · rw [if_neg h2]
      by_cases h3 : n < 0x10000
      · rw [if_pos h3]
        show utf8DecodeChar
            ((0xE0 + n / 4096) :: (0x80 + n / 64 % 64) :: (0x80 + n % 64) :: tail) = _
        simp only [utf8DecodeChar]
        rw [if_neg (by omega), if_neg (by omega), if_neg (by omega),
          if_pos (by omega), if_pos (by refine ⟨⟨?_, ?_⟩, ?_, ?_⟩ <;> omega)]
        have harith : (0xE0 + n / 4096 - 0xE0) * 4096 +
            (0x80 + n / 64 % 64 - 0x80) * 64 + (0x80 + n % 64 - 0x80) = n := by
          omega
        rw [harith]
      · rw [if_neg h3]
        show utf8DecodeChar ((0xF0 + n / 262144) :: (0x80 + n / 4096 % 64) ::
            (0x80 + n / 64 % 64) :: (0x80 + n % 64) :: tail) = _
        simp only [utf8DecodeChar]
        rw [if_neg (by omega), if_neg (by omega), if_neg (by omega),
          if_neg (by omega), if_pos (by omega),
          if_pos (by refine ⟨⟨?_, ?_⟩, ⟨?_, ?_⟩, ?_, ?_⟩ <;> omega)]
        have harith : (0xF0 + n / 262144 - 0xF0) * 262144 +
            (0x80 + n / 4096 % 64 - 0x80) * 4096 +
            (0x80 + n / 64 % 64 - 0x80) * 64 + (0x80 + n % 64 - 0x80) = n := by
          omega
        rw [harith]

theorem utf8DecodeList_nil : utf8DecodeList [] = some [] := by
  unfold utf8DecodeList
  split
  · simp
  · rename_i c rest heq
    simp [utf8DecodeChar] at heq

theorem utf8DecodeList_step {l rest : List Nat} {c : Nat}
    (h : utf8DecodeChar l = some (c, rest)) :
    utf8DecodeList l = (utf8DecodeList rest).map (fun cs => Char.ofNat c :: cs) := by
  conv_lhs => rw [utf8DecodeList]
  split
  · rename_i heq
    rw [heq] at h
    exact absurd h (by simp)
  · rename_i c2 rest2 heq
    rw [h] at heq
    simp only [Option.some.injEq, Prod.mk.injEq] at heq
    rw [heq.1, heq.2]

theorem utf8_roundtrip : ∀ cs : List Char,
    utf8DecodeList (utf8EncodeList cs) = some cs := by
  intro cs
  induction cs with
  | nil => exact utf8DecodeList_nil
  | cons c cs ih =>
      show utf8DecodeList (utf8EncodeChar c.toNat ++ utf8EncodeList cs) = _
      rw [utf8DecodeList_step (utf8DecodeChar_encode c (utf8EncodeList cs)), ih,
        Char.ofNat_toNat]
      rfl

/-! ## Dict lemmas -/

theorem dictLookup_cons {α β : Type} [DecidableEq α] (k2 : α) (v : β)
    (rest : List (α × β)) (k : α) :
    dictLookup ((k2, v) :: rest) k = if k2 = k then some v else dictLookup rest k :=
  rfl

theorem dictInsert_cons {α β : Type} [DecidableEq α] (k2 : α) (v2 : β)
    (rest : List (α × β)) (k : α) (v : β) :
    dictInsert ((k2, v2) :: rest) k v =
      if k2 = k then (k2, v) :: rest else (k2, v2) :: dictInsert rest k v :=
  rfl

theorem dictInsert_notin {α β : Type} [DecidableEq α] :
    ∀ {d : List (α × β)} {k : α}, dictLookup d k = none → ∀ v : β,
      dictInsert d k v = d ++ [(k, v)] := by
  intro d
  induction d with
  | nil => intro k h v; rfl
  | cons p rest ih =>
      intro k h v
      obtain ⟨k2, v2⟩ := p
      rw [dictLookup_cons] at h
      by_cases hk : k2 = k
      · rw [if_pos hk] at h
        exact absurd h (by simp)
      · rw [if_neg hk] at h
        rw [dictInsert_cons, if_neg hk, ih h, List.cons_append]

theorem dictLookup_append_none {α β : Type} [DecidableEq α] :
    ∀ {a : List (α × β)} {k : α}, dictLookup a k = none →
      ∀ b : List (α × β), dictLookup (a ++ b) k = dictLookup b k := by
  intro a
  induction a with
  | nil => intro k h b; rfl
  | cons p rest ih =>
      intro k h b
      obtain ⟨k2, v2⟩ := p
      rw [dictLookup_cons] at h
      by_cases hk : k2 = k
      · rw [if_pos hk] at h
        exact absurd h (by simp)
      · rw [if_neg hk] at h
        rw [List.cons_append, dictLookup_cons, if_neg hk, ih h]

theorem dictLookup_single_ne {α β : Type} [DecidableEq α] {k2 k : α} (v : β)
    (h : k2 ≠ k) : dictLookup [(k2, v)] k = none := by
  rw [dictLookup_cons, if_neg h]
  rfl

theorem foldl_dictInsert {α β : Type} [DecidableEq α] :
    ∀ (idx : List (α × β)) (acc : List (α × β)),
      (idx.map Prod.fst).Nodup →
      (∀ kk ∈ idx.map Prod.fst, dictLookup acc kk = none) →
      idx.foldl (fun a kv => dictInsert a kv.1 kv.2) acc = acc ++ idx := by
  intro idx
  induction idx with
  | nil => intro acc hnd hnone; simp
  | cons p rest ih =>
      intro acc hnd hnone
      obtain ⟨k, v⟩ := p
      simp only [List.map_cons, List.nodup_cons] at hnd
      have hk : dictLookup acc k = none := hnone k (by simp)
      have hstep : ∀ kk ∈ rest.map Prod.fst, dictLookup (acc ++ [(k, v)]) kk = none := by
        intro kk hkk
        have h1 : dictLookup acc kk = none := hnone kk (by simp [hkk])
        have h2 : k ≠ kk := by
          intro hcontra
          exact hnd.1 (hcontra ▸ hkk)
        rw [dictLookup_append_none h1]
        exact dictLookup_single_ne v h2
      simp only [List.foldl_cons]
      rw [dictInsert_notin hk v, ih (acc ++ [(k, v)]) hnd.2 hstep]
      simp

/-! ## Round trip of the codec -/

theorem int_toNat_ofNat (n : Nat) : (Int.ofNat n).toNat = n := rfl

theorem loadLoop_zero (w : Nat) (bs : List Nat) (acc : Index) :
    loadLoop w bs 0 acc = .ok acc := by
  unfold loadLoop
  simp

theorem dumpRecord_parts {w : Nat} {k : String} {v : List Int} {r : List Nat}
    (hr : dumpRecord w k v = some r) :
    (utf8EncodeList k.data).length < 65536 ∧ v.length < 256 ^ w ∧
      ∃ valB, packValues w v = some valB ∧ valB.length = w * v.length ∧
        beChunks w v.length valB = v ∧
        r = beBytes 2 (utf8EncodeList k.data).length ++ utf8EncodeList k.data ++
          beBytes w v.length ++ valB := by
  unfold dumpRecord at hr
  rw [Option.bind_eq_some] at hr
  obtain ⟨lenB, hlen, hr⟩ := hr
  rw [Option.bind_eq_some] at hr
  obtain ⟨cntB, hcnt, hr⟩ := hr
  rw [Option.bind_eq_some] at hr
  obtain ⟨valB, hval, hr⟩ := hr
  simp only [Option.some.injEq] at hr
  obtain ⟨-, hlt1, hb1⟩ := packBE_some hlen
  obtain ⟨-, hlt2, hb2⟩ := packBE_some hcnt
  rw [int_toNat_ofNat] at hlt1 hb1
  rw [int_toNat_ofNat] at hlt2 hb2
  refine ⟨by simpa using hlt1, hlt2,
    valB, hval, packValues_length hval, packValues_chunks hval, ?_⟩
  rw [← hr, hb1, hb2]

theorem loadLoop_record {w : Nat} (hw : 0 < w) {k : String} {v : List Int}
    {r : List Nat} (hr : dumpRecord w k v = some r) (rest : List Nat) (acc : Index) :
    loadLoop w (r ++ rest) (r.length + rest.length) acc =
      loadLoop w rest rest.length (dictInsert acc k v) := by
  obtain ⟨hklt, hvlt, valB, hval, hvallen, hchunks, hrEq⟩ := dumpRecord_parts hr
  set kb := utf8EncodeList k.data with hkb
  have hlenB : (beBytes 2 kb.length).length = 2 := beBytes_length 2 _
  have hcntB : (beBytes w v.length).length = w := beBytes_length w _
  have hrlen : r.length = 2 + kb.length + w + w * v.length := by
    rw [hrEq]
    simp only [List.length_append, hlenB, hcntB, hvallen]
    try omega
  have hra : r ++ rest =
      beBytes 2 kb.length ++ (kb ++ (beBytes w v.length ++ (valB ++ rest))) := by
    rw [hrEq]
    simp [List.append_assoc]
  have h1 : unpackBE 2 ((r ++ rest).take 2) = some kb.length := by
    rw [hra, List.take_left' hlenB, unpackBE_exact hlenB,
      beVal_beBytes 2 _ (by simpa using hklt)]
  have hdrop2 : (r ++ rest).drop 2 = kb ++ (beBytes w v.length ++ (valB ++ rest)) := by
    rw [hra, List.drop_left' hlenB]
  have h2b : utf8DecodeList (((r ++ rest).drop 2).take kb.length) = some k.data := by
    rw [hdrop2, List.take_left, hkb]
    exact utf8_roundtrip k.data
  have hdropk : ((r ++ rest).drop 2).drop kb.length =
      beBytes w v.length ++ (valB ++ rest) := by
    rw [hdrop2, List.drop_left]
  have h3 : unpackBE w ((((r ++ rest).drop 2).drop kb.length).take w) =
      some v.length := by
    rw [hdropk, List.take_left' hcntB, unpackBE_exact hcntB,
      beVal_beBytes w _ hvlt]
  have hdropw : (((r ++ rest).drop 2).drop kb.length).drop w = valB ++ rest := by
    rw [hdropk, List.drop_left' hcntB]
  have hvb : valB.length = v.length * w := by rw [hvallen]; ring
  have h4 : unpackValues w v.length
      (((((r ++ rest).drop 2).drop kb.length).drop w).take (v.length * w)) =
      some v := by
    rw [hdropw, List.take_left' hvb]
    unfold unpackValues
    rw [if_pos hvb, hchunks]
  have h5 : ((((r ++ rest).drop 2).drop kb.length).drop w).drop (v.length * w) =
      rest := by
    rw [hdropw, List.drop_left' hvb]
  have hrr : readRecord w (r ++ rest) =
      some ((k, v), rest, kb.length + w + v.length * w) := by
    unfold readRecord
    simp only [h1, h2b, h3, h4, h5, Option.some_bind]
  have hpos : 0 < r.length + rest.length := by omega
  have hfs : r.length + rest.length - 2 - (kb.length + w + v.length * w) =
      rest.length := by
    have hmc : w * v.length = v.length * w := by ring
    omega
  conv_lhs => rw [loadLoop]
  rw [if_pos hpos, hrr]
  show loadLoop w rest
      (r.length + rest.length - 2 - (kb.length + w + v.length * w))
      (dictInsert acc k v) = _
  rw [hfs]

theorem dumpRecords_nil (w : Nat) : dumpRecords w [] = some [] := rfl

theorem dumpRecords_cons_eq (w : Nat) (k : String) (v : List Int) (rest : Index) :
    dumpRecords w ((k, v) :: rest) = dumpStep w k v (dumpRecords w rest) := by
  simp only [dumpRecords]

theorem dumpStep_eq_some {w : Nat} {k : String} {v : List Int}
    {acc : Option (List Nat)} {recs : List Nat}
    (h : dumpStep w k v acc = some recs) :
    ∃ r rs, dumpRecord w k v = some r ∧ acc = some rs ∧ recs = r ++ rs := by
  unfold dumpStep at h
  cases hr : dumpRecord w k v with
  | none => rw [hr, Option.none_bind] at h; exact absurd h (by simp)
  | some r =>
      rw [hr, Option.some_bind] at h
      cases acc with
      | none => rw [Option.none_bind] at h; exact absurd h (by simp)
      | some rs =>
          rw [Option.some_bind] at h
          injection h with h2
          exact ⟨r, rs, rfl, rfl, h2.symm⟩

theorem loadLoop_records {w : Nat} (hw : 0 < w) :
    ∀ (idx : Index) (recs : List Nat), dumpRecords w idx = some recs →
      ∀ acc : Index, loadLoop w recs recs.length acc =
        .ok (idx.foldl (fun a kv => dictInsert a kv.1 kv.2) acc) := by
  intro idx
  induction idx with
  | nil =>
      intro recs hrecs acc
      rw [dumpRecords_nil] at hrecs
      injection hrecs with h2
      rw [← h2]
      show loadLoop w [] 0 acc = _
      rw [loadLoop_zero]
      rfl
  | cons kv rest ih =>
      intro recs hrecs acc
      obtain ⟨k, v⟩ := kv
      rw [dumpRecords_cons_eq] at hrecs
      obtain ⟨r, rs, hr, hrs, hre⟩ := dumpStep_eq_some hrecs
      rw [hre, List.length_append]
      rw [loadLoop_record hw hr rs acc, ih rs hrs]
      rfl

/-! ## Decomposition of a successful dump -/

theorem except_bind_ok {α β : Type} {x : Except Err α} {f : α → Except Err β}
    {b : β} (h : x.bind f = .ok b) : ∃ a, x = .ok a ∧ f a = .ok b := by
  cases x with
  | error e => exact absurd h (by simp [Except.bind])
  | ok a => exact ⟨a, rfl, h⟩

theorem okOr_ok {α : Type} {o : Option α} {e : Err} {a : α}
    (h : okOr o e = .ok a) : o = some a := by
  cases o with
  | none => exact absurd h (by simp [okOr])
  | some x =>
      have : x = a := by
        have h2 : Except.ok (ε := Err) x = .ok a := h
        injection h2
      rw [this]

theorem okOr_some {α : Type} (a : α) (e : Err) : okOr (some a) e = .ok a := rfl

theorem except_ok_bind {α β : Type} (a : α) (f : α → Except Err β) :
    (Except.ok (ε := Err) a).bind f = f a := rfl

theorem dump_ok_parts {index : Index} {bs : List Nat} (h : dump index = .ok bs) :
    ∃ m recs, indexMax index = .ok m ∧ 0 ≤ m ∧ m.toNat < 256 ^ 4 ∧
      dumpRecords (if m < 65535 then 2 else 4) index = some recs ∧
      bs = leBytes 4 m.toNat ++ recs := by
  unfold dump at h
  obtain ⟨m, hmax, h⟩ := except_bind_ok h
  obtain ⟨header, hh, h⟩ := except_bind_ok h
  obtain ⟨recs, hr, h⟩ := except_bind_ok h
  have hbs : header ++ recs = bs := by
    have h2 : Except.ok (ε := Err) (header ++ recs) = .ok bs := h
    injection h2
  obtain ⟨hm0, hmlt, hhead⟩ := packLE_some (okOr_ok hh)
  exact ⟨m, recs, hmax, hm0, hmlt, okOr_ok hr, by rw [← hbs, hhead]⟩

/-- C1: for every inverted index with at least one term, only non-empty
posting lists, and distinct keys (a Python dict always has distinct keys),
whenever encoding succeeds and produces a byte string, decoding that byte
string yields exactly the original index — the same keys in the same order
with the same posting lists, which is stronger than the claimed equality of
mappings with posting lists compared as sets. The preconditions of the
claim are implied by `dump index = .ok bs`: an empty index or an empty
posting list makes `dump` fail with `EmptyIndexError` instead of producing
bytes. -/
theorem C1_round_trip (index : Index) (bs : List Nat)
    (hnd : (index.map Prod.fst).Nodup) (hdump : dump index = .ok bs) :
    load bs = .ok index := by
  obtain ⟨m, recs, hmax, hm0, hmlt, hrecs, hbs⟩ := dump_ok_parts hdump
  have hlen4 : (leBytes 4 m.toNat).length = 4 := leBytes_length 4 _
  have htake : unpackLE 4 (bs.take 4) = some m.toNat := by
    rw [hbs, List.take_left' hlen4, unpackLE_exact hlen4, leVal_leBytes 4 _ hmlt]
  have hw : (if m.toNat < 65535 then 2 else 4) = (if m < 65535 then 2 else 4 : Nat) := by
    split_ifs <;> omega
  have hwpos : (0 : Nat) < if m < 65535 then 2 else 4 := by
    split_ifs <;> omega
  have hdrop : bs.drop 4 = recs := by
    rw [hbs, List.drop_left' hlen4]
  have hlen : bs.length - 4 = recs.length := by
    rw [hbs, List.length_append, hlen4]
    omega
  unfold load
  rw [htake, okOr_some, except_ok_bind, hw, hdrop, hlen]
  rw [loadLoop_records hwpos index recs hrecs []]
  rw [foldl_dictInsert index [] hnd (by intro kk hkk; rfl)]
  rfl

theorem C1_witness :
    (([("ab", [1, 2]), ("c", [3])] : Index).map Prod.fst).Nodup ∧
    load [3, 0, 0, 0, 0, 2, 97, 98, 0, 2, 0, 1, 0, 2, 0, 1, 99, 0, 1, 0, 3] =
      .ok [("ab", [1, 2]), ("c", [3])] :=
  ⟨by decide, C1_round_trip _ _ (by decide) (by rfl)⟩

/-! ## Emptiness conditions of `indexMax` -/

theorem allMaxima_mem : ∀ {vs : List (List Int)} {ms : List Int},
    allMaxima vs = some ms → ∀ v ∈ vs, ∃ mv, listMax v = some mv := by
  intro vs
  induction vs with
  | nil => intro ms h v hv; exact absurd hv (by simp)
  | cons v2 rest ih =>
      intro ms h v hv
      unfold allMaxima at h
      cases hm : listMax v2 with
      | none => rw [hm] at h; exact absurd h (by simp)
      | some mv2 =>
          rw [hm] at h
          cases hrest : allMaxima rest with
          | none => rw [hrest] at h; exact absurd h (by simp)
          | some ms2 =>
              rcases List.mem_cons.mp hv with h1 | h2
              · exact ⟨mv2, h1 ▸ hm⟩
              · exact ih hrest v h2

theorem indexMax_ok_nonempty {index : Index} {m : Int}
    (h : indexMax index = .ok m) : index ≠ [] := by
  intro h0
  rw [h0] at h
  have h1 : Except.error (α := Int) Err.emptyIndexError = .ok m := h
  exact absurd h1 (by simp)

theorem indexMax_ok_values {index : Index} {m : Int}
    (h : indexMax index = .ok m) : ∀ kv ∈ index, kv.2 ≠ [] := by
  unfold indexMax at h
  cases ha : allMaxima (index.map Prod.snd) with
  | none => rw [ha] at h; exact absurd h (by simp)
  | some maxima =>
      intro kv hkv hnil
      have hmem : kv.2 ∈ index.map Prod.snd := List.mem_map_of_mem _ hkv
      obtain ⟨mv, hmv⟩ := allMaxima_mem ha kv.2 hmem
      rw [hnil] at hmv
      exact absurd hmv (by simp [listMax])

/-- C6: encoding an index with no terms fails with the `EmptyIndexError`
condition (`max` of an empty sequence raises `ValueError`), and a
successful encoding implies the precondition: the index has at least one
term and every posting list is non-empty (an empty posting list also makes
`max(v)` raise, which `allMaxima` maps to the same condition). -/
theorem C6_empty_index :
    dump ([] : Index) = .error .emptyIndexError ∧
    ∀ (index : Index) (bs : List Nat), dump index = .ok bs →
      index ≠ [] ∧ ∀ kv ∈ index, kv.2 ≠ [] := by
  constructor
  · rfl
  · intro index bs h
    obtain ⟨m, recs, hmax, -, -, -, -⟩ := dump_ok_parts h
    exact ⟨indexMax_ok_nonempty hmax, indexMax_ok_values hmax⟩

theorem C6_witness :
    ([("ab", [1, 2]), ("c", [3])] : Index) ≠ [] ∧
      ∀ kv ∈ ([("ab", [1, 2]), ("c", [3])] : Index), kv.2 ≠ [] :=
  C6_empty_index.2 [("ab", [1, 2]), ("c", [3])]
    [3, 0, 0, 0, 0, 2, 97, 98, 0, 2, 0, 1, 0, 2, 0, 1, 99, 0, 1, 0, 3] (by rfl)

/-- C3: the value width is chosen by the strict test `max_id < 65535`. On
the encode side, for any index whose maximum id is 65534, the records are
those assembled with 2-byte count and posting fields, while a maximum id of
65535 or larger yields 4-byte fields; in both cases the header is the
4-byte encoding of the maximum id. On the decode side, `load` derives the
width from the unpacked header by the same strict test: header value 65534
runs the record loop with width 2, header value 65535 or larger with
width 4. -/
theorem C3_width_boundary :
    (∀ (index : Index) (bs : List Nat) (m : Int), dump index = .ok bs →
        indexMax index = .ok m →
        bs.take 4 = leBytes 4 m.toNat ∧ (leBytes 4 m.toNat).length = 4 ∧
        (m = 65534 → ∃ recs, dumpRecords 2 index = some recs ∧
          bs = leBytes 4 m.toNat ++ recs) ∧
        (65535 ≤ m → ∃ recs, dumpRecords 4 index = some recs ∧
          bs = leBytes 4 m.toNat ++ recs)) ∧
    (∀ (bs : List Nat) (m : Nat), unpackLE 4 (bs.take 4) = some m →
        (m = 65534 → load bs = loadLoop 2 (bs.drop 4) (bs.length - 4) []) ∧
        (65535 ≤ m → load bs = loadLoop 4 (bs.drop 4) (bs.length - 4) [])) := by
  constructor
  · intro index bs m hdump hmax
    obtain ⟨m2, recs, hmax2, hm0, hmlt, hrecs, hbs⟩ := dump_ok_parts hdump
    have hmm : m2 = m := by
      rw [hmax] at hmax2
      have h2 : Except.ok (ε := Err) m = .ok m2 := hmax2
      injection h2 with h3
      exact h3.symm
    rw [hmm] at hrecs hbs
    have hlen4 : (leBytes 4 m.toNat).length = 4 := leBytes_length 4 _
    refine ⟨by rw [hbs, List.take_left' hlen4], hlen4, ?_, ?_⟩
    · intro hm
      refine ⟨recs, ?_, hbs⟩
      rw [← hrecs, hm]
      norm_num
    · intro hm
      refine ⟨recs, ?_, hbs⟩
      rw [← hrecs, if_neg (by omega)]
  · intro bs m h
    constructor
    · intro hm
      unfold load
      rw [h, okOr_some, except_ok_bind, hm]
      norm_num
    · intro hm
      unfold load
      rw [h, okOr_some, except_ok_bind, if_neg (by omega)]

theorem C3_witness :
    ∃ recs, dumpRecords 2 [("a", [(65534 : Int)])] = some recs ∧
      [254, 255, 0, 0, 0, 1, 97, 0, 1, 255, 254] =
        leBytes 4 ((65534 : Int)).toNat ++ recs :=
  (C3_width_boundary.1 [("a", [(65534 : Int)])]
    [254, 255, 0, 0, 0, 1, 97, 0, 1, 255, 254] 65534 (by rfl) (by rfl)).2.2.1 rfl

/-! ## Truncated decoding (C8) -/

theorem readRecord_truncated_none {w : Nat} {bs : List Nat} (hw : 2 ≤ w)
    (hlt : bs.length < recSize w bs) : readRecord w bs = none := by
  unfold recSize recCount recKeyLen at hlt
  unfold readRecord
  by_cases hb2 : bs.length < 2
  · rw [unpackBE_short (by simp [List.length_take]; omega), Option.none_bind]
  · rw [unpackBE_exact (by simp [List.length_take]; omega), Option.some_bind]
    cases hd : utf8DecodeList ((bs.drop 2).take (beVal (bs.take 2))) with
    | none => rw [Option.none_bind]
    | some chars =>
        rw [Option.some_bind, List.drop_drop]
        by_cases hb3 : bs.length < 2 + beVal (bs.take 2) + w
        · rw [unpackBE_short (by simp [List.length_take, List.length_drop]; omega),
            Option.none_bind]
        · rw [unpackBE_exact (by simp [List.length_take, List.length_drop]; omega),
            Option.some_bind]
          unfold unpackValues
          rw [if_neg (by simp [List.length_take, List.length_drop]; omega),
            Option.none_bind]

theorem readRecord_fits {w : Nat} {bs : List Nat} (hw : 2 ≤ w)
    (hfit : recSize w bs ≤ bs.length) :
    readRecord w bs = none ∨
    ∃ kv, readRecord w bs = some (kv, bs.drop (recSize w bs),
      recKeyLen bs + w + recCount w bs * w) := by
  have hlt : ¬ bs.length < 2 := by
    unfold recSize at hfit
    omega
  unfold readRecord
  rw [unpackBE_exact (by simp [List.length_take]; omega), Option.some_bind]
  cases hd : utf8DecodeList ((bs.drop 2).take (beVal (bs.take 2))) with
  | none =>
      left
      rw [Option.none_bind]
  | some chars =>
      right
      unfold recSize recCount recKeyLen at hfit
      rw [Option.some_bind, List.drop_drop]
      rw [unpackBE_exact (by simp [List.length_take, List.length_drop]; omega),
        Option.some_bind]
      unfold unpackValues
      rw [if_pos (by simp [List.length_take, List.length_drop]; omega),
        Option.some_bind]
      refine ⟨(String.mk chars,
        beChunks w (beVal ((bs.drop (2 + beVal (bs.take 2))).take w))
          ((bs.drop (2 + beVal (bs.take 2))).drop w |>.take
            (beVal ((bs.drop (2 + beVal (bs.take 2))).take w) * w))), ?_⟩
      unfold recSize recCount recKeyLen
      rw [List.drop_drop, List.drop_drop]

theorem truncated_loadLoop {w : Nat} (hw : 2 ≤ w) :
    ∀ {bs : List Nat}, Truncated w bs → ∀ acc : Index,
      loadLoop w bs bs.length acc = .error .corruptIndexError := by
  intro bs h
  induction h with
  | here bs hpos hlt =>
      intro acc
      conv_lhs => rw [loadLoop]
      rw [if_pos hpos, readRecord_truncated_none hw hlt]
  | later bs hfit htail ih =>
      intro acc
      have hpos : 0 < bs.length := by
        unfold recSize at hfit
        omega
      conv_lhs => rw [loadLoop]
      rw [if_pos hpos]
      rcases readRecord_fits hw hfit with hnone | ⟨kv, hsome⟩
      · rw [hnone]
      · rw [hsome]
        show loadLoop w (bs.drop (recSize w bs))
          (bs.length - 2 - (recKeyLen bs + w + recCount w bs * w))
          (dictInsert acc kv.1 kv.2) = _
        have hfs : bs.length - 2 - (recKeyLen bs + w + recCount w bs * w) =
            (bs.drop (recSize w bs)).length := by
          rw [List.length_drop]
          unfold recSize
          omega
        rw [hfs]
        exact ih (dictInsert acc kv.1 kv.2)

theorem loadLoop_error_corrupt : ∀ (fs : Nat) (w : Nat) (bs : List Nat)
    (acc : Index) (e : Err), loadLoop w bs fs acc = .error e →
    e = .corruptIndexError := by
  intro fs
  induction fs using Nat.strong_induction_on with
  | _ fs ih =>
      intro w bs acc e h
      rw [loadLoop] at h
      by_cases hfs : 0 < fs
      · rw [if_pos hfs] at h
        cases hr : readRecord w bs with
        | none =>
            rw [hr] at h
            have h2 : Except.error (α := Index) Err.corruptIndexError = .error e := h
            injection h2 with h3
            exact h3.symm
        | some pr =>
            rw [hr] at h
            exact ih (fs - 2 - pr.2.2) (by omega) w pr.2.1
              (dictInsert acc pr.1.1 pr.1.2) e h
      · rw [if_neg hfs] at h
        exact absurd h (by simp)

/-- C8: decoding a byte string in which a record's declared lengths (the
term byte length, the count field, or postings count times the value width)
would read past the end of the available bytes fails with the
`CorruptIndexError` condition. The first part states this for the record
loop at either value width, the second for `load` with the width derived
from the header (a header shorter than 4 bytes also fails). The third part
shows every failure of `load` is the `CorruptIndexError` condition, and a
failed decode produces no index at all — `load` returns either `.ok` with
the complete index or `.error` with nothing, so no partially populated
index can be observed. -/
theorem C8_truncated_decode :
    (∀ (w : Nat) (bs : List Nat) (acc : Index), 2 ≤ w → Truncated w bs →
        loadLoop w bs bs.length acc = .error .corruptIndexError) ∧
    (∀ bs : List Nat, 4 ≤ bs.length →
        Truncated (if leVal (bs.take 4) < 65535 then 2 else 4) (bs.drop 4) →
        load bs = .error .corruptIndexError) ∧
    (∀ (bs : List Nat) (e : Err), load bs = .error e → e = .corruptIndexError) := by
  refine ⟨fun w bs acc hw ht => truncated_loadLoop hw ht acc, ?_, ?_⟩
  · intro bs hlen ht
    unfold load
    rw [unpackLE_exact (by simp [List.length_take]; omega), okOr_some,
      except_ok_bind]
    have hw : 2 ≤ (if leVal (bs.take 4) < 65535 then 2 else 4 : Nat) := by
      split_ifs <;> omega
    have hdl : (bs.drop 4).length = bs.length - 4 := List.length_drop 4 bs
    rw [← hdl]
    exact truncated_loadLoop hw ht []
  · intro bs e h
    unfold load at h
    cases hu : unpackLE 4 (bs.take 4) with
    | none =>
        rw [hu] at h
        have h2 : Except.error (α := Index) Err.corruptIndexError = .error e := h
        injection h2 with h3
        exact h3.symm
    | some m =>
        rw [hu, okOr_some, except_ok_bind] at h
        exact loadLoop_error_corrupt _ _ _ _ _ h

theorem C8_witness :
    load [3, 0, 0, 0, 0, 2, 97, 98, 0, 2] = .error .corruptIndexError :=
  C8_truncated_decode.2.1 [3, 0, 0, 0, 0, 2, 97, 98, 0, 2] (by decide)
    (Truncated.here _ (by decide) (by decide))

/-! ## Query engine lemmas -/

theorem queryLoop_nil_none (index : Index) : queryLoop index none [] = none := rfl

theorem queryLoop_nil_some (index : Index) (s : Finset Int) :
    queryLoop index (some s) [] = some (setToList s) := rfl

theorem queryLoop_absent {index : Index} {w : String}
    (h : dictLookup index w = none) (tmp : Option (Finset Int)) (ws : List String) :
    queryLoop index tmp (w :: ws) = some [] := by
  simp only [queryLoop, h]

theorem queryLoop_first {index : Index} {w : String} {l : List Int}
    (h : dictLookup index w = some l) (ws : List String) :
    queryLoop index none (w :: ws) = queryLoop index (some l.toFinset) ws := by
  simp only [queryLoop, h]

theorem queryLoop_inter {index : Index} {w : String} {l : List Int}
    (h : dictLookup index w = some l) (s : Finset Int) (ws : List String) :
    queryLoop index (some s) (w :: ws) =
      queryLoop index (some (s ∩ l.toFinset)) ws := by
  simp only [queryLoop, h]

theorem queryLoop_absent_mem {index : Index} {w : String}
    (h : dictLookup index w = none) :
    ∀ (t1 : List String) (tmp : Option (Finset Int)) (t2 : List String),
      queryLoop index tmp (t1 ++ w :: t2) = some [] := by
  intro t1
  induction t1 with
  | nil =>
      intro tmp t2
      rw [List.nil_append]
      exact queryLoop_absent h tmp t2
  | cons a rest ih =>
      intro tmp t2
      rw [List.cons_append]
      cases ha : dictLookup index a with
      | none => exact queryLoop_absent ha tmp (rest ++ w :: t2)
      | some l =>
          cases tmp with
          | none => rw [queryLoop_first ha]; exact ih _ t2
          | some s => rw [queryLoop_inter ha]; exact ih _ t2

/-- C4: whenever the word list contains a term absent from the index, the
query returns the empty list, whatever the terms before and after it are;
and the terms positioned after the absent term are never examined — the
result does not depend on them at all. -/
theorem C4_short_circuit (index : Index) (t1 : List String) (w : String)
    (t2 : List String) (h : dictLookup index w = none) :
    query index (t1 ++ w :: t2) = some [] ∧
    ∀ t2b : List String, query index (t1 ++ w :: t2b) =
      query index (t1 ++ w :: t2) := by
  refine ⟨queryLoop_absent_mem h t1 none t2, fun t2b => ?_⟩
  rw [show query index (t1 ++ w :: t2b) = some [] from
    queryLoop_absent_mem h t1 none t2b,
    show query index (t1 ++ w :: t2) = some [] from
    queryLoop_absent_mem h t1 none t2]

theorem C4_witness :
    query [("ab", [1, 2]), ("c", [3])] (["ab"] ++ "zz" :: ["c"]) = some [] ∧
    ∀ t2b : List String,
      query [("ab", [1, 2]), ("c", [3])] (["ab"] ++ "zz" :: t2b) =
        query [("ab", [1, 2]), ("c", [3])] (["ab"] ++ "zz" :: ["c"]) :=
  C4_short_circuit [("ab", [1, 2]), ("c", [3])] ["ab"] "zz" ["c"] (by decide)

/-- C5: the code does not return the empty result on an empty word list —
it fails. With an empty list the loop never runs, `tmp` is still `None`,
and `return list(tmp)` raises `TypeError` (`'NoneType' object is not
iterable`), modelled as `none`; the second conjunct evaluates the failing
input on a concrete index. The claim that `query([])` returns the empty
result is therefore false on the code; the spec prescribes the empty
result, so this is recorded as a code bug. -/
theorem C5_empty_query_raises :
    (∀ index : Index, query index [] = none) ∧
    query [("a", [1])] [] = none := by
  exact ⟨fun index => rfl, rfl⟩

/-- C10: evaluating a query leaves the stored term to posting-list mapping
unchanged. `queryST` is the state-passing embedding in which every
operation of the loop is a store read or an update of the local `tmp` set
(`set(self._index[word])` copies the stored list's elements into a fresh
set; `intersection_update` mutates only that fresh set), and it returns the
store each step leaves behind: the final store equals the initial one, and
the result agrees with the pure `query`. -/
theorem C10_query_frame (index : Index) (words : List String) :
    (queryST index none words).2 = index ∧
    (queryST index none words).1 = query index words := by
  have hgen : ∀ (ws : List String) (tmp : Option (Finset Int)),
      queryST index tmp ws = (queryLoop index tmp ws, index) := by
    intro ws
    induction ws with
    | nil =>
        intro tmp
        cases tmp with
        | none => rfl
        | some s => rfl
    | cons w ws ih =>
        intro tmp
        cases ha : dictLookup index w with
        | none =>
            cases tmp with
            | none => simp only [queryST, queryLoop, ha]
            | some s => simp only [queryST, queryLoop, ha]
        | some l =>
            cases tmp with
            | none => simp only [queryST, queryLoop, ha, ih]
            | some s => simp only [queryST, queryLoop, ha, ih]
  rw [hgen words none]
  exact ⟨rfl, rfl⟩

/-! ## Builder membership characterization (C2) -/

/-- The posting set a word maps to in the `defaultdict`, empty when the
word is absent (spec-side helper). -/
def postingsOf (m : List (String × Finset Int)) (w : String) : Finset Int :=
  (dictLookup m w).getD ∅

theorem postingsOf_nil (w : String) :
    postingsOf ([] : List (String × Finset Int)) w = ∅ := rfl

theorem postingsOf_cons (k : String) (s : Finset Int)
    (rest : List (String × Finset Int)) (w2 : String) :
    postingsOf ((k, s) :: rest) w2 = if k = w2 then s else postingsOf rest w2 := by
  by_cases h : k = w2 <;> simp [postingsOf, dictLookup_cons, h]

theorem addPosting_nil (w : String) (d : Int) :
    addPosting [] w d = [(w, {d})] := rfl

theorem addPosting_cons (k : String) (s : Finset Int)
    (rest : List (String × Finset Int)) (w : String) (d : Int) :
    addPosting ((k, s) :: rest) w d =
      if k = w then (k, insert d s) :: rest else (k, s) :: addPosting rest w d :=
  rfl

theorem addPosting_postingsOf (w : String) (d : Int) :
    ∀ (m : List (String × Finset Int)) (w2 : String),
      postingsOf (addPosting m w d) w2 =
        if w = w2 then insert d (postingsOf m w) else postingsOf m w2 := by
  intro m
  induction m with
  | nil =>
      intro w2
      by_cases hw : w = w2 <;>
        simp [addPosting_nil, postingsOf_cons, postingsOf_nil, hw]
  | cons p rest ih =>
      intro w2
      obtain ⟨k, s⟩ := p
      by_cases hk : k = w
      · subst hk
        by_cases hw2 : k = w2 <;>
          simp [addPosting_cons, postingsOf_cons, hw2]
      · by_cases hw2 : w = w2
        · subst hw2
          simp [addPosting_cons, postingsOf_cons, hk, ih]
        · by_cases hk2 : k = w2
          · subst hk2
            simp [addPosting_cons, postingsOf_cons, hk, hw2]
          · simp [addPosting_cons, postingsOf_cons, hk, hk2, hw2, ih]

theorem addWords_mem (d : Int) :
    ∀ (toks : List String) (m : List (String × Finset Int)) (d2 : Int) (w : String),
      d2 ∈ postingsOf (toks.foldl (fun a w2 => addPosting a w2 d) m) w ↔
        d2 ∈ postingsOf m w ∨ (d2 = d ∧ w ∈ toks) := by
  intro toks
  induction toks with
  | nil => intro m d2 w; simp
  | cons t rest ih =>
      intro m d2 w
      rw [List.foldl_cons, ih, addPosting_postingsOf]
      by_cases ht : t = w
      · subst ht
        rw [if_pos rfl]
        simp only [Finset.mem_insert, List.mem_cons, eq_self_iff_true, true_or,
          and_true]
        tauto
      · rw [if_neg ht]
        simp only [List.mem_cons]
        constructor
        · rintro (h1 | ⟨h2, h3⟩)
          · exact Or.inl h1
          · exact Or.inr ⟨h2, Or.inr h3⟩
        · rintro (h1 | ⟨h2, h3 | h4⟩)
          · exact Or.inl h1
          · exact absurd h3.symm ht
          · exact Or.inr ⟨h2, h4⟩

theorem buildFold_mem :
    ∀ (docs : Docs) (m : List (String × Finset Int)) (d : Int) (w : String),
      d ∈ postingsOf (docs.foldl (fun acc kv => addDoc acc kv.1 kv.2) m) w ↔
        d ∈ postingsOf m w ∨ ∃ kv ∈ docs, kv.1 = d ∧ w ∈ pyTokens kv.2 := by
  intro docs
  induction docs with
  | nil => intro m d w; simp
  | cons kv rest ih =>
      intro m d w
      rw [List.foldl_cons, ih]
      have haw : d ∈ postingsOf (addDoc m kv.1 kv.2) w ↔
          d ∈ postingsOf m w ∨ (d = kv.1 ∧ w ∈ pyTokens kv.2) := by
        unfold addDoc
        rw [addWords_mem]
      rw [haw]
      simp only [List.mem_cons]
      constructor
      · rintro ((h1 | ⟨h2, h3⟩) | ⟨kv2, h4, h5, h6⟩)
        · exact Or.inl h1
        · exact Or.inr ⟨kv, Or.inl rfl, h2.symm, h3⟩
        · exact Or.inr ⟨kv2, Or.inr h4, h5, h6⟩
      · rintro (h1 | ⟨kv2, h4 | h4, h5, h6⟩)
        · exact Or.inl (Or.inl h1)
        · subst h4
          exact Or.inl (Or.inr ⟨h5.symm, h6⟩)
        · exact Or.inr ⟨kv2, h4, h5, h6⟩

theorem mem_docs_iff_lookup {docs : Docs} (hnd : (docs.map Prod.fst).Nodup)
    (d : Int) (Q : String → Prop) :
    (∃ kv ∈ docs, kv.1 = d ∧ Q kv.2) ↔
      (∃ text, dictLookup docs d = some text ∧ Q text) := by
  induction docs with
  | nil => simp [dictLookup]
  | cons kv rest ih =>
      obtain ⟨i, t⟩ := kv
      simp only [List.map_cons, List.nodup_cons] at hnd
      by_cases hi : i = d
      · subst hi
        rw [dictLookup_cons, if_pos rfl]
        simp only [List.mem_cons]
        constructor
        · rintro ⟨kv2, h1 | h1, h2, h3⟩
          · rw [h1] at h3
            exact ⟨t, rfl, h3⟩
          · exfalso
            apply hnd.1
            rw [← h2]
            exact List.mem_map_of_mem Prod.fst h1
        · rintro ⟨text, h1, h2⟩
          have : text = t := by injection h1 with h3; exact h3.symm
          exact ⟨(i, t), Or.inl rfl, rfl, this ▸ h2⟩
      · rw [dictLookup_cons, if_neg hi]
        rw [← ih hnd.2]
        simp only [List.mem_cons]
        constructor
        · rintro ⟨kv2, h1 | h1, h2, h3⟩
          · exfalso
            apply hi
            rw [h1] at h2
            exact h2
          · exact ⟨kv2, h1, h2, h3⟩
        · rintro ⟨kv2, h1, h2, h3⟩
          exact ⟨kv2, Or.inr h1, h2, h3⟩

theorem dictLookup_map_snd {β γ : Type} (f : β → γ) :
    ∀ (m : List (String × β)) (k : String),
      dictLookup (m.map (fun kv => (kv.1, f kv.2))) k =
        (dictLookup m k).map f := by
  intro m
  induction m with
  | nil => intro k; rfl
  | cons kv rest ih =>
      intro k
      obtain ⟨k2, v⟩ := kv
      by_cases hk : k2 = k
      · simp [dictLookup_cons, hk]
      · simp only [List.map_cons, dictLookup_cons, if_neg hk]
        exact ih k

theorem lookup_build_mem {docs : Docs} (hnd : (docs.map Prod.fst).Nodup)
    (d : Int) (t : String) :
    (∃ l, dictLookup (build_inverted_index docs) t = some l ∧ d ∈ l) ↔
      (∃ text, dictLookup docs d = some text ∧ t ∈ pyTokens text) := by
  unfold build_inverted_index
  rw [dictLookup_map_snd (fun s => setToList s) (buildIndexMap docs) t]
  have hp : (∃ l, (dictLookup (buildIndexMap docs) t).map
      (fun s => setToList s) = some l ∧ d ∈ l) ↔
      d ∈ postingsOf (buildIndexMap docs) t := by
    cases hl : dictLookup (buildIndexMap docs) t with
    | none => simp [postingsOf, hl]
    | some s => simp [postingsOf, hl, setToList, Finset.mem_sort]
  rw [hp]
  unfold buildIndexMap
  rw [buildFold_mem]
  have hempty : d ∈ postingsOf [] t ↔ False := by
    simp [postingsOf, dictLookup]
  rw [hempty]
  rw [mem_docs_iff_lookup hnd d (fun text => t ∈ pyTokens text)]
  tauto

theorem queryLoop_some_mem (index : Index) (d : Int) :
    ∀ (ws : List String) (s : Finset Int),
      (∃ res, queryLoop index (some s) ws = some res ∧ d ∈ res) ↔
        (d ∈ s ∧ ∀ t ∈ ws, ∃ l, dictLookup index t = some l ∧ d ∈ l) := by
  intro ws
  induction ws with
  | nil =>
      intro s
      rw [queryLoop_nil_some]
      simp [setToList, Finset.mem_sort]
  | cons w ws ih =>
      intro s
      cases ha : dictLookup index w with
      | none =>
          rw [queryLoop_absent ha]
          simp only [List.mem_cons]
          constructor
          · rintro ⟨res, h1, h2⟩
            have : res = [] := by injection h1 with h3; exact h3.symm
            rw [this] at h2
            exact absurd h2 (by simp)
          · rintro ⟨h1, h2⟩
            obtain ⟨l, hl, -⟩ := h2 w (Or.inl rfl)
            rw [ha] at hl
            exact absurd hl (by simp)
      | some l =>
          rw [queryLoop_inter ha, ih]
          simp only [Finset.mem_inter, List.mem_toFinset, List.mem_cons]
          constructor
          · rintro ⟨⟨h1, h2⟩, h3⟩
            refine ⟨h1, fun t ht => ?_⟩
            rcases ht with ht | ht
            · exact ⟨l, ht ▸ ha, h2⟩
            · exact h3 t ht
          · rintro ⟨h1, h2⟩
            obtain ⟨l2, hl2, hd2⟩ := h2 w (Or.inl rfl)
            have : l2 = l := by
              rw [ha] at hl2
              injection hl2 with h3
              exact h3.symm
            exact ⟨⟨h1, this ▸ hd2⟩, fun t ht => h2 t (Or.inr ht)⟩

theorem queryMem_iff (index : Index) (d : Int) :
    ∀ (ws : List String), ws ≠ [] →
      (queryMem index ws d ↔
        ∀ t ∈ ws, ∃ l, dictLookup index t = some l ∧ d ∈ l) := by
  intro ws hne
  cases ws with
  | nil => exact absurd rfl hne
  | cons w ws2 =>
      unfold queryMem query
      cases ha : dictLookup index w with
      | none =>
          rw [queryLoop_absent ha]
          simp only [List.mem_cons]
          constructor
          · rintro ⟨res, h1, h2⟩
            have : res = [] := by injection h1 with h3; exact h3.symm
            rw [this] at h2
            exact absurd h2 (by simp)
          · rintro h1
            obtain ⟨l, hl, -⟩ := h1 w (Or.inl rfl)
            rw [ha] at hl
            exact absurd hl (by simp)
      | some l =>
          rw [queryLoop_first ha, queryLoop_some_mem]
          simp only [List.mem_toFinset, List.mem_cons]
          constructor
          · rintro ⟨h1, h2⟩
            intro t ht
            rcases ht with ht | ht
            · exact ⟨l, ht ▸ ha, h1⟩
            · exact h2 t ht
          · intro h1
            obtain ⟨l2, hl2, hd2⟩ := h1 w (Or.inl rfl)
            have : l2 = l := by
              rw [ha] at hl2
              injection hl2 with h3
              exact h3.symm
            exact ⟨this ▸ hd2, fun t ht => h1 t (Or.inr ht)⟩

/-- C2 (amended): for every documents mapping with distinct ids (a Python
dict), every document id `d` in it with text `text`, and every NON-EMPTY
term list `T`, `d` is a member of `query T` on the index built from the
mapping if and only if the whitespace-token list of `text` contains every
term of `T`. The original claim quantified over all term lists including
the empty one; on the empty list `query` raises `TypeError` (`list(None)`),
so the equivalence fails there (see the counterexample), and the empty case
is excluded here. -/
theorem C2_intersection (docs : Docs) (hnd : (docs.map Prod.fst).Nodup)
    (d : Int) (text : String) (hd : dictLookup docs d = some text)
    (T : List String) (hne : T ≠ []) :
    (queryMem (build_inverted_index docs) T d ↔ ∀ t ∈ T, t ∈ pyTokens text) := by
  rw [queryMem_iff (build_inverted_index docs) d T hne]
  constructor
  · intro h t ht
    obtain ⟨text2, h2, h3⟩ := (lookup_build_mem hnd d t).mp (h t ht)
    have : text2 = text := by
      rw [hd] at h2
      injection h2 with h4
      exact h4.symm
    exact this ▸ h3
  · intro h t ht
    exact (lookup_build_mem hnd d t).mpr ⟨text, hd, h t ht⟩

/-- C2 counterexample: the claim as stated fails for the empty term list.
With documents `{1: "a"}` and `T = []`, the right side of the claimed
equivalence holds vacuously, but `1` is not a member of `query([])` —
the query fails (`list(None)` raises `TypeError`), so it has no members. -/
theorem C2_counterexample :
    ¬ (queryMem (build_inverted_index [((1 : Int), "a")]) [] 1 ↔
        ∀ t ∈ ([] : List String), t ∈ pyTokens "a") := by
  intro h
  obtain ⟨res, hres, -⟩ := h.mpr (by simp)
  have hq : query (build_inverted_index [((1 : Int), "a")]) [] = none := rfl
  rw [hq] at hres
  exact absurd hres (by simp)

theorem C2_witness :
    queryMem (build_inverted_index [((1 : Int), "aa bb"), (2, "bb")]) ["bb"] 1 ↔
      ∀ t ∈ ["bb"], t ∈ pyTokens "aa bb" :=
  C2_intersection [((1 : Int), "aa bb"), (2, "bb")] (by decide) 1 "aa bb"
    (by rfl) ["bb"] (by simp)

/-! ## Document loader lemmas (C7, C9) -/

theorem loadDocsLoop_nil (docs : Docs) : loadDocsLoop docs [] = .ok docs := rfl

theorem loadDocsLoop_cons_none {line : String} (h : parseLine line = none)
    (docs : Docs) (rest : List String) :
    loadDocsLoop docs (line :: rest) = .error .formatError := by
  simp only [loadDocsLoop, h]

theorem loadDocsLoop_cons_some {line : String} {kv : Int × String}
    (h : parseLine line = some kv) (docs : Docs) (rest : List String) :
    loadDocsLoop docs (line :: rest) =
      loadDocsLoop (dictInsert docs kv.1 kv.2) rest := by
  simp only [loadDocsLoop, h]

theorem loadDocsLoop_error {bad : String} (hbad : parseLine bad = none)
    (post : List String) :
    ∀ (pre : List String) (docs : Docs), (∀ l ∈ pre, (parseLine l).isSome) →
      loadDocsLoop docs (pre ++ bad :: post) = .error .formatError := by
  intro pre
  induction pre with
  | nil =>
      intro docs h
      rw [List.nil_append]
      exact loadDocsLoop_cons_none hbad docs post
  | cons line rest ih =>
      intro docs h
      rw [List.cons_append]
      have hl : (parseLine line).isSome := h line (by simp)
      cases hp : parseLine line with
      | none => rw [hp] at hl; exact absurd hl (by simp)
      | some kv =>
          rw [loadDocsLoop_cons_some hp]
          exact ih _ (fun l hl2 => h l (by simp [hl2]))

theorem dictLookup_dictInsert {α β : Type} [DecidableEq α] (k : α) (v : β) :
    ∀ (d : List (α × β)) (k2 : α),
      dictLookup (dictInsert d k v) k2 =
        if k = k2 then some v else dictLookup d k2 := by
  intro d
  induction d with
  | nil =>
      intro k2
      by_cases hk : k = k2 <;> simp [dictInsert, dictLookup_cons, hk, dictLookup]
  | cons p rest ih =>
      intro k2
      obtain ⟨a, b⟩ := p
      rw [dictInsert_cons]
      by_cases ha : a = k
      · subst ha
        rw [if_pos rfl, dictLookup_cons, dictLookup_cons]
        by_cases h2 : a = k2 <;> simp [h2]
      · rw [if_neg ha, dictLookup_cons]
        by_cases h2 : a = k2
        · subst h2
          rw [if_pos rfl]
          have : ¬ k = a := fun hc => ha hc.symm
          rw [if_neg this, dictLookup_cons, if_pos rfl]
        · rw [if_neg h2, ih k2]
          by_cases h3 : k = k2
          · rw [if_pos h3, if_pos h3]
          · rw [if_neg h3, if_neg h3, dictLookup_cons, if_neg h2]

theorem loadDocsLoop_lastText :
    ∀ (lines : List String) (docs : Docs),
      (∀ l ∈ lines, (parseLine l).isSome) →
      ∃ out, loadDocsLoop docs lines = .ok out ∧
        ∀ id : Int, dictLookup out id =
          (lines.filterMap parseLine).foldl
            (fun acc kv => if kv.1 = id then some kv.2 else acc)
            (dictLookup docs id) := by
  intro lines
  induction lines with
  | nil =>
      intro docs h
      exact ⟨docs, rfl, fun id => by simp⟩
  | cons line rest ih =>
      intro docs h
      have hl : (parseLine line).isSome := h line (by simp)
      cases hp : parseLine line with
      | none => rw [hp] at hl; exact absurd hl (by simp)
      | some kv =>
          rw [loadDocsLoop_cons_some hp]
          obtain ⟨out, hout, hlook⟩ :=
            ih (dictInsert docs kv.1 kv.2) (fun l hl2 => h l (by simp [hl2]))
          refine ⟨out, hout, fun id => ?_⟩
          rw [hlook id, dictLookup_dictInsert]
          rw [List.filterMap_cons_some hp, List.foldl_cons]

/-- C9: if every line of the corpus is well formed, loading succeeds even
when the same id occurs on several lines, and the produced mapping sends
each id to the text of the last line bearing it (last-write-wins, the
semantics of repeated `dict` assignment). -/
theorem C9_last_write_wins (lines : List String)
    (h : ∀ l ∈ lines, (parseLine l).isSome) :
    ∃ docs, load_documents lines = .ok docs ∧
      ∀ id : Int, dictLookup docs id = lastText lines id := by
  obtain ⟨out, hout, hlook⟩ := loadDocsLoop_lastText lines [] h
  refine ⟨out, hout, fun id => ?_⟩
  rw [hlook id]
  rfl

theorem C9_witness :
    ∃ docs, load_documents ["1 a", "2 b", "1 c d"] = .ok docs ∧
      ∀ id : Int, dictLookup docs id = lastText ["1 a", "2 b", "1 c d"] id :=
  C9_last_write_wins ["1 a", "2 b", "1 c d"] (by decide)

/-- C7 (amended): a corpus line whose first whitespace-delimited token does
not parse as an integer — including a line with no tokens at all, where
`row[0]` raises `IndexError` — fails with the `FormatError` condition, and
the load aborts at the first such line, producing no mapping (`parseLine`
is `none` exactly for those lines). A line that has an id token but no
tokens after it does NOT fail, contrary to the original claim: it loads
successfully, mapping the id to the empty text (`" ".join([])`). -/
theorem C7_malformed_line :
    (∀ (pre : List String) (bad : String) (post : List String),
        (∀ l ∈ pre, (parseLine l).isSome) → parseLine bad = none →
        load_documents (pre ++ bad :: post) = .error .formatError) ∧
    (∀ (line t : String) (n : Int), pyTokens line = [t] → pyInt t = some n →
        load_documents [line] = .ok [(n, "")]) := by
  constructor
  · intro pre bad post hpre hbad
    exact loadDocsLoop_error hbad post pre [] hpre
  · intro line t n htok hint
    have hp : parseLine line = some (n, "") := by
      unfold parseLine
      rw [htok]
      show (pyInt t).map (fun id => (id, joinSp [])) = some (n, "")
      rw [hint]
      rfl
    unfold load_documents
    rw [loadDocsLoop_cons_some hp]
    rfl

/-- C7 counterexample: the line `"5"` has an id token and no tokens after
it; the claim says it must fail with `FormatError`, but the code loads it
successfully as the mapping `{5: ""}`. -/
theorem C7_counterexample :
    load_documents ["5"] = .ok [((5 : Int), "")] ∧
      load_documents ["5"] ≠ .error .formatError := by
  constructor
  · rfl
  · intro h
    have h1 : load_documents ["5"] = .ok [((5 : Int), "")] := rfl
    rw [h1] at h
    exact absurd h (by simp)

theorem C7_witness :
    load_documents (["1 a"] ++ "x 5" :: ["2 b"]) = .error .formatError :=
  C7_malformed_line.1 ["1 a"] "x 5" ["2 b"] (by decide) (by decide)

end InvIdx
